import Mathlib

/-!
Verification of the MixMatch training core of
medical-projects/oct-diagn-semi-supervised
(src/src/models/mix_match/controller.py).

The numeric code is embedded shallowly:

- a torch tensor becomes a Tensor: a shape (list of dimension sizes,
  whose length is the tensor rank) together with a flat list of scalar
  entries; scalars are taken in an arbitrary linearly ordered field so
  that the arithmetic-only components (WeightEMA, linear_rampup, the
  mixup coefficient) stay computable and can be evaluated at rationals;
- the softmax-based components (the label guesser of
  MixMatchController.routine lines 57-59 and SemiLoss.call) are stated
  over the reals, with rows as functions Fin c -> Real;
- Python zip truncates at the shorter list, modelled by List.zipWith
  plus the untouched tail; in-place tensor mutation becomes functional
  state update.
-/

set_option autoImplicit false

namespace MixMatch

universe u v w
variable {α : Type u} {β : Type v} {γ : Type w}

/-- A torch tensor: its shape (the rank is the length of the shape) and its
entries flattened to a list.  The EMA updater only reads the rank and maps
over the entries, so this flat view is faithful. -/
structure Tensor (α : Type u) where
  shape : List Nat
  data : List α
deriving DecidableEq

/-- State of the WeightEMA optimizer (controller.py lines 185-204): the decay
rate alpha, the weight-decay factor wd, and the two parameter lists taken
from the trained model and the EMA (shadow) model. -/
structure WeightEMA (α : Type u) where
  alpha : α
  wd : α
  params : List (Tensor α)
  ema_params : List (Tensor α)
deriving DecidableEq

/-- WeightEMA.__init__ (controller.py lines 186-195): record alpha, set
wd = 0.02 * learning_rate, keep the two parameter lists, and then run
param.data.copy_(ema_param.data) over zip(params, ema_params): each trained
parameter's entries are overwritten with the shadow parameter's entries
(zip truncates, so trained parameters beyond the shadow list are kept). -/
def WeightEMA.init [LinearOrderedField α] (model ema_model : List (Tensor α))
    (alpha lr : α) : WeightEMA α :=
  { alpha := alpha
    wd := 2 / 100 * lr
    params :=
      (List.zipWith (fun p e => { shape := p.shape, data := e.data }) model ema_model)
        ++ model.drop ema_model.length
    ema_params := ema_model }

/-- One EMA blend of a shadow entry with a trained entry:
ema_param.mul_(alpha); ema_param.add_(param * one_minus_alpha). -/
def emaBlend [LinearOrderedField α] (alpha : α) (ev pv : α) : α :=
  alpha * ev + (1 - alpha) * pv

/-- WeightEMA.step (controller.py lines 197-204): over zip(params, ema_params),
whenever the trained parameter has rank greater than 0, the shadow entries are
blended (shadow <- alpha * shadow + (1 - alpha) * trained, reading the trained
entries before their decay) and the trained entries are then scaled by
(1 - wd); rank-0 pairs are left untouched, as are unpaired tails. -/
def WeightEMA.step [LinearOrderedField α] (s : WeightEMA α) : WeightEMA α :=
  { alpha := s.alpha
    wd := s.wd
    params :=
      (List.zipWith
        (fun p _ =>
          if 0 < p.shape.length then
            { shape := p.shape, data := p.data.map (fun v => v * (1 - s.wd)) }
          else p)
        s.params s.ema_params)
        ++ s.params.drop s.ema_params.length
    ema_params :=
      (List.zipWith
        (fun p e =>
          if 0 < p.shape.length then
            { shape := e.shape, data := List.zipWith (emaBlend s.alpha) e.data p.data }
          else e)
        s.params s.ema_params)
        ++ s.ema_params.drop s.params.length }

/-- Index lookup distributes over zipWith. -/
theorem zipWith_lookup (f : α → β → γ) :
    ∀ (l₁ : List α) (l₂ : List β) (i : Nat),
      (List.zipWith f l₁ l₂)[i]? =
        l₁[i]?.bind fun a => l₂[i]?.map fun b => f a b := by
  intro l₁
  induction l₁ with
  | nil => intro l₂ i; cases l₂ <;> cases i <;> simp
  | cons a t ih =>
    intro l₂ i
    cases l₂ with
    | nil => cases i <;> simp
    | cons b t₂ =>
      cases i with
      | zero => simp
      | succ j => simpa using ih t₂ j

/-- Index lookup in the left part of an append. -/
theorem append_lookup_left :
    ∀ (l₁ l₂ : List α) (i : Nat), i < l₁.length → (l₁ ++ l₂)[i]? = l₁[i]? := by
  intro l₁
  induction l₁ with
  | nil => intro l₂ i h; exact absurd h (by simp)
  | cons a t ih =>
    intro l₂ i h
    cases i with
    | zero => simp
    | succ j =>
      simp only [List.cons_append, List.getElem?_cons_succ]
      exact ih l₂ j (by simpa using h)

/-- Looking up a pair of a zipWith-plus-tail construction below the zipped
length reduces to the pointwise function. -/
theorem step_lookup (f : Tensor α → Tensor α → Tensor α)
    (l₁ l₂ : List (Tensor α)) (tail : List (Tensor α)) (i : Nat)
    (h₁ : i < l₁.length) (h₂ : i < l₂.length) :
    (List.zipWith f l₁ l₂ ++ tail)[i]? =
      l₁[i]?.bind fun a => l₂[i]?.map fun b => f a b := by
  rw [append_lookup_left]
  · exact zipWith_lookup f l₁ l₂ i
  · simpa [List.length_zipWith] using And.intro h₁ h₂

/-- torch.softmax(x, dim=1) applied to one row of logits. -/
noncomputable def softmaxRow {c : ℕ} (x : Fin c → ℝ) : Fin c → ℝ :=
  fun j => Real.exp (x j) / ∑ k, Real.exp (x k)

/-- F.log_softmax(x, dim=1) applied to one row of logits: the logarithm of
the softmax probability. -/
noncomputable def logSoftmaxRow {c : ℕ} (x : Fin c → ℝ) : Fin c → ℝ :=
  fun j => Real.log (softmaxRow x j)

/-- torch.mean of a vector: the sum of the entries over their number. -/
noncomputable def vecMean {n : ℕ} (f : Fin n → ℝ) : ℝ :=
  (∑ i, f i) / n

/-- torch.mean of a matrix-shaped tensor: the sum of all entries over the
number of entries. -/
noncomputable def matMean {n c : ℕ} (f : Fin n → Fin c → ℝ) : ℝ :=
  (∑ p : Fin n × Fin c, f p.1 p.2) / (Fintype.card (Fin n × Fin c))

/-- State of SemiLoss (controller.py lines 163-166): the unlabeled loss
weight lambda_u and the rampup horizon taken from the epochs argument. -/
structure SemiLoss (α : Type u) where
  lambda_u : α
  epochs : α

/-- SemiLoss.linear_rampup (controller.py lines 168-174): 1.0 on a zero
horizon, otherwise current over the horizon clipped to the unit interval
by np.clip. -/
def SemiLoss.linear_rampup [LinearOrderedField α] (current rampup_length : α) : α :=
  if rampup_length = 0 then 1 else min (max (current / rampup_length) 0) 1

/-- SemiLoss.__call__ (controller.py lines 176-182): the soft cross-entropy
Lx on the labeled logits, the squared-error consistency term Lu between
softmax of the unlabeled logits and the guessed targets, and the ramped
unlabeled weight. -/
noncomputable def SemiLoss.call {n m c : ℕ} (L : SemiLoss ℝ)
    (outputs_x targets_x : Fin n → Fin c → ℝ)
    (outputs_u targets_u : Fin m → Fin c → ℝ) (epoch : ℝ) : ℝ × ℝ × ℝ :=
  (-vecMean (fun i => ∑ j, logSoftmaxRow (outputs_x i) j * targets_x i j),
   matMean (fun i j => (softmaxRow (outputs_u i) j - targets_u i j) ^ 2),
   L.lambda_u * SemiLoss.linear_rampup epoch L.epochs)

/-- Spec formula for the labeled loss, written as the spec says it: the
negative mean over samples of the per-sample sum over classes of
target times log-softmax. -/
noncomputable def specLabeledLoss {n c : ℕ} (outputs targets : Fin n → Fin c → ℝ) : ℝ :=
  -((∑ i, ∑ j, targets i j * logSoftmaxRow (outputs i) j) / n)

/-- Spec formula for the unlabeled loss, written as the spec says it: the
mean squared error between the softmax of the unlabeled logits and the soft
targets, that is the sum of the squared entry differences over the number of
entries. -/
noncomputable def specUnlabeledLoss {m c : ℕ} (outputs targets : Fin m → Fin c → ℝ) : ℝ :=
  (∑ i, ∑ j, (softmaxRow (outputs i) j - targets i j) ^ 2) / (m * c)

/-- Label guesser of MixMatchController.routine (controller.py lines 57-59):
average the softmax probabilities of the two augmented views, raise each
entry to the power 1 / T, and renormalize each row by its sum. -/
noncomputable def guessLabels {n c : ℕ} (T : ℝ)
    (outputs_u1 outputs_u2 : Fin n → Fin c → ℝ) : Fin n → Fin c → ℝ :=
  fun i j =>
    ((softmaxRow (outputs_u1 i) j + softmaxRow (outputs_u2 i) j) / 2) ^ (1 / T) /
      ∑ k, ((softmaxRow (outputs_u1 i) k + softmaxRow (outputs_u2 i) k) / 2) ^ (1 / T)

/-- Effective mixup coefficient (controller.py lines 66-67): the Beta draw l
is replaced by max(l, 1 - l). -/
def effectiveMixCoeff [LinearOrderedField α] (l : α) : α :=
  max l (1 - l)

/-- Modelled from the spec: src/models/mix_match/utils.py, which holds the
interleave helper imported at controller.py line 12, is not among the
sources.  Following spec section 4.2 step 5, a batch of size batch split
into n segments gives each segment batch / n rows, with the batch mod n
leftover rows given one each to the trailing segments (the round-robin
remainder rule). -/
def interleaveGroups (batch n : Nat) : List Nat :=
  List.replicate (n - batch % n) (batch / n) ++ List.replicate (batch % n) (batch / n + 1)

/-- Modelled from the spec: slicing a chunk at the running offsets of the
group sizes, each segment taking the next group-size rows (slices truncate
at the end of the chunk, as Python slicing does). -/
def splitByGroups : List Nat → List β → List (List β)
  | [], _ => []
  | g :: gs, v => v.take g :: splitByGroups gs (v.drop g)

/-- Modelled from the spec: the segments chunk 0 receives in the exchange
of spec section 4.2 step 5, read index-matched along the diagonal.  The
argument i is the segment index of the chunk at the head of the third
argument: that chunk contributes its segment number i (the head of its
drop at i), and the remaining chunks contribute theirs at the following
indices. -/
def takeDiag : ℕ → List γ → List (List γ) → List γ
  | _, t0, [] => t0
  | _, [], _ :: _ => []
  | i, s :: t0, ch :: rest => ((ch.drop i).headD s) :: takeDiag (i + 1) t0 rest

/-- Modelled from the spec: the chunks other than chunk 0 after the
exchange; the chunk at segment index i receives chunk 0's segment number i
in place of its own segment number i. -/
def putDiag : ℕ → List γ → List (List γ) → List (List γ)
  | _, _, [] => []
  | _, [], rest => rest
  | i, s :: t0, ch :: rest => ch.set i s :: putDiag (i + 1) t0 rest

/-- Modelled from the spec: the exchange of spec section 4.2 step 5, with
its exact pattern derived (as spec section 9 instructs) against the
self-inverse property of spec section 8: chunk 0 keeps its leading segment,
and for every i at least 1 chunk 0's segment number i is exchanged with
chunk i's segment number i.  Matched segments sit at the same offsets of
equal-size chunks, so the exchange swaps equal-length slices and permutes
whole rows. -/
def swapSegs : List (List γ) → List (List γ)
  | [] => []
  | c0 :: rest => (c0.take 1 ++ takeDiag 1 (c0.drop 1) rest) :: putDiag 1 (c0.drop 1) rest

/-- Modelled from the spec: interleave (controller.py lines 78 and 85) on a
list of equal-size chunks; every chunk is split into segments by the group
sizes and the index-matched segments are exchanged with chunk 0. -/
def interleave (xs : List (List β)) (batch : Nat) : List (List β) :=
  (swapSegs (xs.map (splitByGroups (interleaveGroups batch xs.length)))).map List.flatten

/-- Elementwise description of one WeightEMA.step at a paired index: the
trained tensor is decayed and the shadow tensor blended when the trained
rank is positive, and both are kept otherwise. -/
theorem weightEMA_step_lookup [LinearOrderedField α] (s : WeightEMA α) (i : ℕ)
    (h₁ : i < s.params.length) (h₂ : i < s.ema_params.length) :
    s.step.params[i]? =
      some (if 0 < (s.params.get ⟨i, h₁⟩).shape.length then
        { shape := (s.params.get ⟨i, h₁⟩).shape,
          data := (s.params.get ⟨i, h₁⟩).data.map (fun v => v * (1 - s.wd)) }
      else s.params.get ⟨i, h₁⟩) ∧
    s.step.ema_params[i]? =
      some (if 0 < (s.params.get ⟨i, h₁⟩).shape.length then
        { shape := (s.ema_params.get ⟨i, h₂⟩).shape,
          data := List.zipWith (emaBlend s.alpha)
            (s.ema_params.get ⟨i, h₂⟩).data (s.params.get ⟨i, h₁⟩).data }
      else s.ema_params.get ⟨i, h₂⟩) := by
  constructor
  · simp only [WeightEMA.step]
    rw [step_lookup _ s.params s.ema_params _ i h₁ h₂,
      List.getElem?_eq_getElem h₁, List.getElem?_eq_getElem h₂]
    simp [List.get_eq_getElem]
  · simp only [WeightEMA.step]
    rw [step_lookup _ s.params s.ema_params _ i h₁ h₂,
      List.getElem?_eq_getElem h₁, List.getElem?_eq_getElem h₂]
    simp [List.get_eq_getElem]

/-- C1 (counterexample): at construction the trained parameters are not
left unchanged; with trained data 2 and shadow data 3 the trained tensor
holds 3 afterwards. -/
theorem c1_init_counterexample :
    (WeightEMA.init (α := ℚ) [⟨[1], [2]⟩] [⟨[1], [3]⟩] (999/1000) (2/1000)).params
      ≠ [⟨[1], [2]⟩] := by
  decide

/-- C1 (amended): at construction of the EMA updater the copy direction is
shadow to trained: every trained parameter tensor is overwritten
element-for-element with the shadow parameter values (keeping its shape),
the shadow parameter list is left unchanged, and so immediately after
construction every shadow parameter tensor's entries equal the
corresponding trained parameter tensor's entries. -/
theorem c1_init_copies_shadow_into_trained (α : Type) [LinearOrderedField α]
    (model ema_model : List (Tensor α)) (alpha lr : α) (i : ℕ)
    (h₁ : i < model.length) (h₂ : i < ema_model.length) :
    (WeightEMA.init model ema_model alpha lr).ema_params = ema_model ∧
    (WeightEMA.init model ema_model alpha lr).params[i]? =
      some { shape := (model.get ⟨i, h₁⟩).shape, data := (ema_model.get ⟨i, h₂⟩).data } ∧
    ((WeightEMA.init model ema_model alpha lr).params[i]?.map Tensor.data) =
      ((WeightEMA.init model ema_model alpha lr).ema_params[i]?.map Tensor.data) := by
  refine ⟨rfl, ?_, ?_⟩
  · simp only [WeightEMA.init]
    rw [step_lookup _ model ema_model _ i h₁ h₂,
      List.getElem?_eq_getElem h₁, List.getElem?_eq_getElem h₂]
    simp [List.get_eq_getElem]
  · simp only [WeightEMA.init]
    rw [step_lookup _ model ema_model _ i h₁ h₂,
      List.getElem?_eq_getElem h₁, List.getElem?_eq_getElem h₂]
    simp [List.get_eq_getElem]

/-- C1 (witness): a concrete construction where the trained tensor takes
the shadow entries. -/
theorem c1_init_witness :
    (WeightEMA.init (α := ℚ) [⟨[1], [2]⟩] [⟨[1], [3]⟩] (999/1000) (2/1000)).params[0]? =
      some ⟨[1], [3]⟩ := by
  have h := c1_init_copies_shadow_into_trained ℚ [⟨[1], [2]⟩] [⟨[1], [3]⟩]
    (999/1000) (2/1000) 0 (by decide) (by decide)
  rw [h.2.1]
  decide

/-- C2: on every parameter pair whose trained tensor has rank greater
than 0, one WeightEMA.step blends the shadow entries to
alpha * shadow + (1 - alpha) * trained and scales the trained entries by
(1 - wd), where construction sets wd = 0.02 * learning_rate; in
particular with trained = shadow = 1.0, alpha = 0.9 and
learning_rate = 0.002 the shadow entry stays 1.0 and the trained entry
becomes 0.99996. -/
theorem c2_step_update :
    (∀ (α : Type) [LinearOrderedField α] (s : WeightEMA α) (i : ℕ)
      (h₁ : i < s.params.length) (h₂ : i < s.ema_params.length),
      0 < (s.params.get ⟨i, h₁⟩).shape.length →
      s.step.ema_params[i]? =
        some { shape := (s.ema_params.get ⟨i, h₂⟩).shape,
               data := List.zipWith (emaBlend s.alpha)
                 (s.ema_params.get ⟨i, h₂⟩).data (s.params.get ⟨i, h₁⟩).data } ∧
      s.step.params[i]? =
        some { shape := (s.params.get ⟨i, h₁⟩).shape,
               data := (s.params.get ⟨i, h₁⟩).data.map (fun v => v * (1 - s.wd)) }) ∧
    ((WeightEMA.init (α := ℚ) [⟨[1], [1]⟩] [⟨[1], [1]⟩] (9/10) (2/1000)).wd = 4/100000 ∧
     (WeightEMA.init (α := ℚ) [⟨[1], [1]⟩] [⟨[1], [1]⟩] (9/10) (2/1000)).step.ema_params =
       [⟨[1], [1]⟩] ∧
     (WeightEMA.init (α := ℚ) [⟨[1], [1]⟩] [⟨[1], [1]⟩] (9/10) (2/1000)).step.params =
       [⟨[1], [99996/100000]⟩]) := by
  constructor
  · intro α _ s i h₁ h₂ hrank
    have h := weightEMA_step_lookup s i h₁ h₂
    simp only [if_pos hrank] at h
    exact ⟨h.2, h.1⟩
  · refine ⟨by norm_num [WeightEMA.init], ?_, ?_⟩
    · norm_num [WeightEMA.init, WeightEMA.step, emaBlend]
    · norm_num [WeightEMA.init, WeightEMA.step, emaBlend]

/-- C2 (witness): a concrete rank-1 pair with distinct values, stepped
once. -/
theorem c2_step_witness :
    (WeightEMA.step (⟨1/2, 1/10, [⟨[2], [6]⟩], [⟨[2], [4]⟩]⟩ : WeightEMA ℚ)).ema_params[0]? =
      some ⟨[2], [5]⟩ ∧
    (WeightEMA.step (⟨1/2, 1/10, [⟨[2], [6]⟩], [⟨[2], [4]⟩]⟩ : WeightEMA ℚ)).params[0]? =
      some ⟨[2], [27/5]⟩ := by
  have h := c2_step_update.1 ℚ (⟨1/2, 1/10, [⟨[2], [6]⟩], [⟨[2], [4]⟩]⟩ : WeightEMA ℚ)
    0 (by decide) (by decide) (by decide)
  exact ⟨by rw [h.1]; norm_num [emaBlend], by rw [h.2]; norm_num⟩

/-- C9: a parameter pair whose trained tensor has rank 0 is left entirely
unchanged by WeightEMA.step (no blend, no decay), while a pair of positive
trained rank is updated to the blended shadow and decayed trained values. -/
theorem c9_scalar_params_frozen (α : Type) [LinearOrderedField α]
    (s : WeightEMA α) (i : ℕ)
    (h₁ : i < s.params.length) (h₂ : i < s.ema_params.length) :
    ((s.params.get ⟨i, h₁⟩).shape.length = 0 →
      s.step.params[i]? = s.params[i]? ∧ s.step.ema_params[i]? = s.ema_params[i]?) ∧
    (0 < (s.params.get ⟨i, h₁⟩).shape.length →
      s.step.ema_params[i]? =
        some { shape := (s.ema_params.get ⟨i, h₂⟩).shape,
               data := List.zipWith (emaBlend s.alpha)
                 (s.ema_params.get ⟨i, h₂⟩).data (s.params.get ⟨i, h₁⟩).data } ∧
      s.step.params[i]? =
        some { shape := (s.params.get ⟨i, h₁⟩).shape,
               data := (s.params.get ⟨i, h₁⟩).data.map (fun v => v * (1 - s.wd)) }) := by
  have h := weightEMA_step_lookup s i h₁ h₂
  constructor
  · intro hzero
    have hneg : ¬ 0 < (s.params.get ⟨i, h₁⟩).shape.length := by omega
    simp only [if_neg hneg] at h
    rw [List.getElem?_eq_getElem h₁, List.getElem?_eq_getElem h₂]
    simpa [List.get_eq_getElem] using h
  · intro hrank
    simp only [if_pos hrank] at h
    exact ⟨h.2, h.1⟩

/-- C9 (witness): a rank-0 pair next to a rank-1 pair; the scalar pair is
untouched by a step. -/
theorem c9_scalar_witness :
    (WeightEMA.step (⟨1/2, 1/10, [⟨[], [6]⟩], [⟨[], [4]⟩]⟩ : WeightEMA ℚ)).params[0]? =
      some ⟨[], [6]⟩ ∧
    (WeightEMA.step (⟨1/2, 1/10, [⟨[], [6]⟩], [⟨[], [4]⟩]⟩ : WeightEMA ℚ)).ema_params[0]? =
      some ⟨[], [4]⟩ := by
  have h := (c9_scalar_params_frozen ℚ
    (⟨1/2, 1/10, [⟨[], [6]⟩], [⟨[], [4]⟩]⟩ : WeightEMA ℚ) 0 (by decide) (by decide)).1
    (by decide)
  exact ⟨by rw [h.1]; decide, by rw [h.2]; decide⟩

/-- C3: the SemiLoss call returns as labeled loss the negative mean over
samples of the per-sample sum over classes of target times log-softmax of
the labeled logits, and as unlabeled loss the mean squared error between
softmax of the unlabeled logits and the unlabeled soft targets, for every
input batch. -/
theorem c3_semiloss_losses {n m c : ℕ} (L : SemiLoss ℝ)
    (outputs_x targets_x : Fin n → Fin c → ℝ)
    (outputs_u targets_u : Fin m → Fin c → ℝ) (epoch : ℝ) :
    (L.call outputs_x targets_x outputs_u targets_u epoch).1 =
      specLabeledLoss outputs_x targets_x ∧
    (L.call outputs_x targets_x outputs_u targets_u epoch).2.1 =
      specUnlabeledLoss outputs_u targets_u := by
  constructor
  · simp only [SemiLoss.call, specLabeledLoss, vecMean]
    congr 2
    exact Finset.sum_congr rfl fun i _ =>
      Finset.sum_congr rfl fun j _ => mul_comm _ _
  · simp only [SemiLoss.call, specUnlabeledLoss, matMean,
      Fintype.card_prod, Fintype.card_fin]
    rw [Fintype.sum_prod_type]
    norm_cast

/-- C4: for every positive rampup horizon the unlabeled weight returned by
SemiLoss equals lambda_u times the progress fraction clamped to the unit
interval, hence 0 at progress 0, lambda_u at or beyond the horizon, and
linear in between; with lambda_u 75, horizon 1000 and epoch 500 the weight
is 37.5. -/
theorem c4_unlabeled_weight {n m c : ℕ} (L : SemiLoss ℝ)
    (outputs_x targets_x : Fin n → Fin c → ℝ)
    (outputs_u targets_u : Fin m → Fin c → ℝ) (epoch : ℝ)
    (hE : 0 < L.epochs) :
    ((L.call outputs_x targets_x outputs_u targets_u epoch).2.2 =
        L.lambda_u * min (max (epoch / L.epochs) 0) 1) ∧
    (epoch = 0 →
      (L.call outputs_x targets_x outputs_u targets_u epoch).2.2 = 0) ∧
    (L.epochs ≤ epoch →
      (L.call outputs_x targets_x outputs_u targets_u epoch).2.2 = L.lambda_u) ∧
    (0 ≤ epoch → epoch ≤ L.epochs →
      (L.call outputs_x targets_x outputs_u targets_u epoch).2.2 =
        L.lambda_u * (epoch / L.epochs)) ∧
    ((SemiLoss.call ⟨75, 1000⟩ ((fun _ _ => 0) : Fin 1 → Fin 1 → ℝ) (fun _ _ => 0)
        ((fun _ _ => 0) : Fin 1 → Fin 1 → ℝ) (fun _ _ => 0) 500).2.2 = 375/10) := by
  have hne : L.epochs ≠ 0 := ne_of_gt hE
  simp only [SemiLoss.call, SemiLoss.linear_rampup, if_neg hne]
  refine ⟨trivial, ?_, ?_, ?_, ?_⟩
  · intro h0
    rw [h0]
    norm_num
  · intro hge
    have h1 : 1 ≤ epoch / L.epochs := (one_le_div hE).mpr hge
    have h0 : (0:ℝ) ≤ epoch / L.epochs := le_trans zero_le_one h1
    rw [max_eq_left h0, min_eq_right h1, mul_one]
  · intro h0 h1
    have hq0 : (0:ℝ) ≤ epoch / L.epochs := div_nonneg h0 (le_of_lt hE)
    have hq1 : epoch / L.epochs ≤ 1 := (div_le_one hE).mpr h1
    rw [max_eq_left hq0, min_eq_left hq1]
  · have h12 : ((500:ℝ)/1000) = 1/2 := by norm_num
    have hmax : max ((500:ℝ)/1000) 0 = 1/2 := by rw [h12]; exact max_eq_left (by norm_num)
    have hmin : min ((1:ℝ)/2) 1 = 1/2 := min_eq_left (by norm_num)
    norm_num [SemiLoss.call, SemiLoss.linear_rampup, hmax, hmin]

/-- C4 (witness): the ramp weight identity at the concrete horizon 1000 and
epoch 500. -/
theorem c4_witness :
    (0:ℝ) < 1000 ∧
    (SemiLoss.call ⟨75, 1000⟩ ((fun _ _ => 0) : Fin 1 → Fin 1 → ℝ) (fun _ _ => 0)
        ((fun _ _ => 0) : Fin 1 → Fin 1 → ℝ) (fun _ _ => 0) 500).2.2 =
      (75:ℝ) * min (max ((500:ℝ) / 1000) 0) 1 := by
  refine ⟨by norm_num, ?_⟩
  exact (c4_unlabeled_weight ⟨75, 1000⟩ ((fun _ _ => 0) : Fin 1 → Fin 1 → ℝ) (fun _ _ => 0)
    ((fun _ _ => 0) : Fin 1 → Fin 1 → ℝ) (fun _ _ => 0) 500 (by norm_num)).1

/-- C10: a zero rampup horizon makes linear_rampup return 1.0 for every
progress value, so the unlabeled weight equals the full lambda_u instead of
dividing by zero. -/
theorem c10_zero_horizon_full_weight :
    (∀ (α : Type) [LinearOrderedField α] (current : α),
      SemiLoss.linear_rampup current 0 = 1) ∧
    (∀ (n m c : ℕ) (lambda_u epoch : ℝ)
      (outputs_x targets_x : Fin n → Fin c → ℝ)
      (outputs_u targets_u : Fin m → Fin c → ℝ),
      ((⟨lambda_u, 0⟩ : SemiLoss ℝ).call outputs_x targets_x outputs_u targets_u
        epoch).2.2 = lambda_u) := by
  constructor
  · intro α _ current
    simp [SemiLoss.linear_rampup]
  · intro n m c lambda_u epoch outputs_x targets_x outputs_u targets_u
    simp [SemiLoss.call, SemiLoss.linear_rampup]

/-- Entries of a softmax row are positive when there is at least one
class. -/
theorem softmaxRow_pos {c : ℕ} (hc : 0 < c) (x : Fin c → ℝ) (j : Fin c) :
    0 < softmaxRow x j := by
  have : Nonempty (Fin c) := ⟨⟨0, hc⟩⟩
  exact div_pos (Real.exp_pos _)
    (Finset.sum_pos (fun k _ => Real.exp_pos _) Finset.univ_nonempty)

/-- A softmax row sums to one when there is at least one class. -/
theorem softmaxRow_sum_one {c : ℕ} (hc : 0 < c) (x : Fin c → ℝ) :
    ∑ j, softmaxRow x j = 1 := by
  have : Nonempty (Fin c) := ⟨⟨0, hc⟩⟩
  have hS : 0 < ∑ k, Real.exp (x k) :=
    Finset.sum_pos (fun k _ => Real.exp_pos _) Finset.univ_nonempty
  simp only [softmaxRow]
  rw [← Finset.sum_div, div_self (ne_of_gt hS)]

/-- C5: for every sharpening temperature T above 0 each row of the label
guesser output is a probability vector: all entries are non-negative and
the row sums to 1. -/
theorem c5_guessed_labels_distribution {n c : ℕ} (T : ℝ) (_hT : 0 < T) (hc : 0 < c)
    (outputs_u1 outputs_u2 : Fin n → Fin c → ℝ) (i : Fin n) :
    (∀ j, 0 ≤ guessLabels T outputs_u1 outputs_u2 i j) ∧
    (∑ j, guessLabels T outputs_u1 outputs_u2 i j = 1) := by
  have hp : ∀ k, 0 < (softmaxRow (outputs_u1 i) k + softmaxRow (outputs_u2 i) k) / 2 :=
    fun k => div_pos
      (add_pos (softmaxRow_pos hc _ k) (softmaxRow_pos hc _ k)) two_pos
  have hpt : ∀ k,
      0 < ((softmaxRow (outputs_u1 i) k + softmaxRow (outputs_u2 i) k) / 2) ^ (1 / T) :=
    fun k => Real.rpow_pos_of_pos (hp k) _
  have : Nonempty (Fin c) := ⟨⟨0, hc⟩⟩
  have hS : 0 < ∑ k,
      ((softmaxRow (outputs_u1 i) k + softmaxRow (outputs_u2 i) k) / 2) ^ (1 / T) :=
    Finset.sum_pos (fun k _ => hpt k) Finset.univ_nonempty
  constructor
  · intro j
    exact le_of_lt (div_pos (hpt j) hS)
  · unfold guessLabels
    rw [← Finset.sum_div, div_self (ne_of_gt hS)]

/-- C5 (witness): temperature 2, two classes, both views with zero logits. -/
theorem c5_witness :
    (0:ℝ) < 2 ∧ 0 < 2 ∧
    ((∀ j, 0 ≤ guessLabels 2 ((fun _ _ => 0) : Fin 1 → Fin 2 → ℝ) (fun _ _ => 0) 0 j) ∧
     (∑ j, guessLabels 2 ((fun _ _ => 0) : Fin 1 → Fin 2 → ℝ) (fun _ _ => 0) 0 j = 1)) := by
  refine ⟨by norm_num, by norm_num, ?_⟩
  exact c5_guessed_labels_distribution 2 (by norm_num) (by norm_num)
    ((fun _ _ => 0) : Fin 1 → Fin 2 → ℝ) (fun _ _ => 0) 0

/-- C6: at temperature 1 the label guesser output is exactly the plain
average of the two softmax distributions; sharpening and renormalizing is
the identity there. -/
theorem c6_temperature_one_average {n c : ℕ} (hc : 0 < c)
    (outputs_u1 outputs_u2 : Fin n → Fin c → ℝ) (i : Fin n) (j : Fin c) :
    guessLabels 1 outputs_u1 outputs_u2 i j =
      (softmaxRow (outputs_u1 i) j + softmaxRow (outputs_u2 i) j) / 2 := by
  unfold guessLabels
  simp only [one_div_one, Real.rpow_one]
  rw [← Finset.sum_div, Finset.sum_add_distrib,
    softmaxRow_sum_one hc, softmaxRow_sum_one hc]
  norm_num

/-- C6 (witness): one class, both views with zero logits, temperature 1. -/
theorem c6_witness :
    0 < 1 ∧
    guessLabels 1 ((fun _ _ => 0) : Fin 1 → Fin 1 → ℝ) (fun _ _ => 0) 0 0 =
      (softmaxRow ((fun _ => 0) : Fin 1 → ℝ) 0 + softmaxRow ((fun _ => 0) : Fin 1 → ℝ) 0) / 2 := by
  refine ⟨by decide, ?_⟩
  exact c6_temperature_one_average (by decide)
    ((fun _ _ => 0) : Fin 1 → Fin 1 → ℝ) (fun _ _ => 0) 0 0

/-- C7: for every Beta draw l in the unit interval the effective mixing
coefficient max(l, 1 - l) lies between one half and one. -/
theorem c7_mixing_coefficient_bounds {α : Type u} [LinearOrderedField α]
    (l : α) (h0 : 0 ≤ l) (h1 : l ≤ 1) :
    1/2 ≤ effectiveMixCoeff l ∧ effectiveMixCoeff l ≤ 1 := by
  unfold effectiveMixCoeff
  constructor
  · rcases le_total l (1 - l) with h | h
    · rw [max_eq_right h]
      linarith
    · rw [max_eq_left h]
      linarith
  · exact max_le h1 (by linarith)

/-- C7 (witness): the draw three tenths, over the rationals. -/
theorem c7_witness :
    (0:ℚ) ≤ 3/10 ∧ (3/10:ℚ) ≤ 1 ∧
    (1/2 ≤ effectiveMixCoeff ((3/10):ℚ) ∧ effectiveMixCoeff ((3/10):ℚ) ≤ 1) :=
  ⟨by norm_num, by norm_num,
    c7_mixing_coefficient_bounds ((3/10):ℚ) (by norm_num) (by norm_num)⟩

/-- Splitting yields one segment per group. -/
theorem splitByGroups_length (gs : List ℕ) :
    ∀ (v : List β), (splitByGroups gs v).length = gs.length := by
  induction gs with
  | nil => intro v; rfl
  | cons g gs ih => intro v; simp [splitByGroups, ih]

/-- Concatenating the segments of a split recovers the chunk when the chunk
length is the total group size. -/
theorem flatten_splitByGroups :
    ∀ (gs : List ℕ) (v : List β), v.length = gs.sum →
      (splitByGroups gs v).flatten = v := by
  intro gs
  induction gs with
  | nil =>
    intro v hv
    simp only [List.sum_nil, List.length_eq_zero] at hv
    subst hv
    rfl
  | cons g gs ih =>
    intro v hv
    simp only [splitByGroups, List.flatten_cons]
    rw [ih (v.drop g) (by simp [hv, List.sum_cons]), List.take_append_drop]

/-- The round-robin groups are one per chunk. -/
theorem interleaveGroups_length (batch n : ℕ) (hn : 0 < n) :
    (interleaveGroups batch n).length = n := by
  have hmod : batch % n < n := Nat.mod_lt batch hn
  simp only [interleaveGroups, List.length_append, List.length_replicate]
  omega

/-- The round-robin groups sum to the batch size. -/
theorem interleaveGroups_sum (batch n : ℕ) (hn : 0 < n) :
    (interleaveGroups batch n).sum = batch := by
  have hmod : batch % n < n := Nat.mod_lt batch hn
  have hdm : n * (batch / n) + batch % n = batch := Nat.div_add_mod batch n
  have hsub : (n - batch % n) * (batch / n) =
      n * (batch / n) - (batch % n) * (batch / n) := Nat.sub_mul n (batch % n) (batch / n)
  have hle : (batch % n) * (batch / n) ≤ n * (batch / n) :=
    Nat.mul_le_mul_right (batch / n) (le_of_lt hmod)
  simp only [interleaveGroups, List.sum_append, List.sum_replicate, smul_eq_mul,
    Nat.mul_succ]
  omega

/-- Splitting a chunk whose length is the total group size produces one
segment of exactly each group's length. -/
theorem splitByGroups_forall₂ :
    ∀ (gs : List ℕ) (v : List β), v.length = gs.sum →
      List.Forall₂ (fun s g => s.length = g) (splitByGroups gs v) gs := by
  intro gs
  induction gs with
  | nil => intro v hv; exact List.Forall₂.nil
  | cons g gs ih =>
    intro v hv
    rw [List.sum_cons] at hv
    refine List.Forall₂.cons ?_ (ih (v.drop g) ?_)
    · rw [List.length_take]
      omega
    · rw [List.length_drop]
      omega

/-- Splitting the concatenation of segments whose lengths match the groups
recovers the segments. -/
theorem splitByGroups_flatten_of_forall₂ :
    ∀ {segs : List (List β)} {gs : List ℕ},
      List.Forall₂ (fun s g => s.length = g) segs gs →
      splitByGroups gs segs.flatten = segs := by
  intro segs gs h
  induction h with
  | nil => rfl
  | cons hs h2 ih =>
    simp only [List.flatten_cons, splitByGroups]
    rw [List.take_left' hs, List.drop_left' hs, ih]

/-- Writing back the entry read at an index leaves the list unchanged. -/
theorem set_lookup_self :
    ∀ (l : List γ) (i : ℕ) (h : i < l.length), l.set i (l.get ⟨i, h⟩) = l := by
  intro l
  induction l with
  | nil => intro i h; simp at h
  | cons a t ih =>
    intro i h
    cases i with
    | zero => rfl
    | succ j =>
      have := ih j (by simpa using h)
      simpa using this

/-- The exchanged chunks are as many as before. -/
theorem putDiag_length :
    ∀ (rest : List (List γ)) (i : ℕ) (t0 : List γ),
      (putDiag i t0 rest).length = rest.length := by
  intro rest
  induction rest with
  | nil => intro i t0; cases t0 <;> simp [putDiag]
  | cons ch rest ih =>
    intro i t0
    cases t0 with
    | nil => simp [putDiag]
    | cons s t0 => simp [putDiag, ih]

/-- Performing the diagonal exchange twice restores both the tail of chunk 0
and the other chunks, as soon as every chunk is long enough for its
diagonal index. -/
theorem takeDiag_putDiag_involution :
    ∀ (rest : List (List γ)) (i : ℕ) (t0 : List γ),
      (∀ ch ∈ rest, i + rest.length ≤ ch.length) →
      takeDiag i (takeDiag i t0 rest) (putDiag i t0 rest) = t0 ∧
      putDiag i (takeDiag i t0 rest) (putDiag i t0 rest) = rest := by
  intro rest
  induction rest with
  | nil => intro i t0 hch; cases t0 <;> simp [takeDiag, putDiag]
  | cons ch rest ih =>
    intro i t0 hch
    cases t0 with
    | nil => simp [takeDiag, putDiag]
    | cons s t0 =>
      have hmem : i + (rest.length + 1) ≤ ch.length := by
        simpa using hch ch (by simp)
      have hi : i < ch.length := by omega
      have hi2 : i < (ch.set i s).length := by
        simpa using hi
      have hih := ih (i + 1) t0 (fun ch₂ hch₂ => by
        have := hch ch₂ (by simp [hch₂])
        simp only [List.length_cons] at this
        omega)
      have hd : (ch.drop i).headD s = ch.get ⟨i, hi⟩ := by
        rw [List.drop_eq_getElem_cons hi, List.headD_cons]
        exact (List.get_eq_getElem ch ⟨i, hi⟩).symm
      simp only [takeDiag, putDiag]
      rw [hih.1, hih.2, hd]
      refine ⟨?_, ?_⟩
      · rw [List.drop_eq_getElem_cons hi2]
        simp only [List.headD_cons, List.cons.injEq]
        exact ⟨List.getElem_set_self _, trivial⟩
      · rw [List.set_set]
        simp only [List.cons.injEq]
        exact ⟨set_lookup_self ch i hi, trivial⟩

/-- Setting a segment whose length matches the group at its index keeps the
positional length property of a chunk. -/
theorem forall₂_set :
    ∀ (i : ℕ) (ch : List (List β)) (gs : List ℕ) (s : List β) (g : ℕ) (gs₃ : List ℕ),
      List.Forall₂ (fun sg gg => sg.length = gg) ch gs →
      gs.drop i = g :: gs₃ → s.length = g →
      List.Forall₂ (fun sg gg => sg.length = gg) (ch.set i s) gs := by
  intro i
  induction i with
  | zero =>
    intro ch gs s g gs₃ h hdrop hs
    rw [List.drop_zero] at hdrop
    subst hdrop
    cases h with
    | cons hy hu =>
      simp only [List.set_cons_zero]
      exact List.Forall₂.cons hs hu
  | succ j ih =>
    intro ch gs s g gs₃ h hdrop hs
    cases h with
    | nil => simp at hdrop
    | cons hy hu =>
      simp only [List.drop_succ_cons] at hdrop
      simp only [List.set_cons_succ]
      exact List.Forall₂.cons hy (ih _ _ _ _ _ hu hdrop hs)

/-- The segments chunk 0 receives on the diagonal have the lengths of the
remaining groups, as they are read from chunks whose remaining segments
match those groups. -/
theorem forall₂_takeDiag :
    ∀ (rest : List (List (List β))) (i : ℕ) (t0 : List (List β)) (gs₂ : List ℕ),
      List.Forall₂ (fun s g => s.length = g) t0 gs₂ →
      (∀ ch ∈ rest, List.Forall₂ (fun s g => s.length = g) (ch.drop i) gs₂) →
      List.Forall₂ (fun s g => s.length = g) (takeDiag i t0 rest) gs₂ := by
  intro rest
  induction rest with
  | nil =>
    intro i t0 gs₂ h0 hch
    simpa [takeDiag] using h0
  | cons ch rest ih =>
    intro i t0 gs₂ h0 hch
    cases t0 with
    | nil =>
      cases h0
      simp only [takeDiag]
      exact List.Forall₂.nil
    | cons s t0 =>
      cases h0 with
      | cons hs h0 =>
        have hch0 := hch ch (by simp)
        rcases List.forall₂_cons_right_iff.mp hch0 with ⟨y, u, hy, hu, heq⟩
        simp only [takeDiag]
        refine List.Forall₂.cons ?_ (ih (i + 1) t0 _ h0 ?_)
        · rw [heq, List.headD_cons]
          exact hy
        · intro ch₂ hch₂
          have h2 := hch ch₂ (by simp [hch₂])
          rcases List.forall₂_cons_right_iff.mp h2 with ⟨y₂, u₂, hy₂, hu₂, heq₂⟩
          have hu₂eq : ch₂.drop (i + 1) = u₂ := by
            rw [← List.tail_drop, heq₂, List.tail_cons]
          rw [hu₂eq]
          exact hu₂

/-- The exchanged chunks keep the positional length property: each receives
a chunk 0 segment of the length of the group at its diagonal index. -/
theorem forall₂_putDiag :
    ∀ (rest : List (List (List β))) (i : ℕ) (t0 : List (List β)) (gs : List ℕ),
      (∀ ch ∈ rest, List.Forall₂ (fun s g => s.length = g) ch gs) →
      List.Forall₂ (fun s g => s.length = g) t0 (gs.drop i) →
      ∀ r ∈ putDiag i t0 rest, List.Forall₂ (fun s g => s.length = g) r gs := by
  intro rest
  induction rest with
  | nil =>
    intro i t0 gs hch h0 r hr
    simp [putDiag] at hr
  | cons ch rest ih =>
    intro i t0 gs hch h0 r hr
    cases t0 with
    | nil =>
      simp only [putDiag] at hr
      exact hch r hr
    | cons s t0 =>
      rcases List.forall₂_cons_left_iff.mp h0 with ⟨g, gs₃, hs, h0₂, hdrop⟩
      have hdrop₂ : gs.drop (i + 1) = gs₃ := by
        rw [← List.tail_drop, hdrop, List.tail_cons]
      simp only [putDiag, List.mem_cons] at hr
      rcases hr with rfl | hr
      · exact forall₂_set i ch gs s g gs₃ (hch ch (by simp)) hdrop hs
      · refine ih (i + 1) t0 gs (fun ch₂ h₂ => hch ch₂ (by simp [h₂])) ?_ r hr
        rw [hdrop₂]
        exact h0₂

/-- The exchange preserves the positional length property of every chunk's
segments. -/
theorem swapSegs_forall₂ (m : List (List (List β))) (gs : List ℕ)
    (h : ∀ r ∈ m, List.Forall₂ (fun s g => s.length = g) r gs) :
    ∀ r ∈ swapSegs m, List.Forall₂ (fun s g => s.length = g) r gs := by
  cases m with
  | nil => intro r hr; simp [swapSegs] at hr
  | cons c0 rest =>
    intro r hr
    have h0 := h c0 (by simp)
    simp only [swapSegs, List.mem_cons] at hr
    rcases hr with rfl | hr
    · cases h0 with
      | nil =>
        cases rest <;> simp [takeDiag]
      | cons hy hu =>
        simp only [List.take_succ_cons, List.take_zero, List.drop_succ_cons,
          List.drop_zero, List.cons_append, List.nil_append]
        refine List.Forall₂.cons hy (forall₂_takeDiag rest 1 _ _ hu ?_)
        intro ch hch
        have h2 := h ch (by simp [hch])
        rcases List.forall₂_cons_right_iff.mp h2 with ⟨y₂, u₂, hy₂, hu₂, heq₂⟩
        rw [heq₂]
        simpa using hu₂
    · refine forall₂_putDiag rest 1 (c0.drop 1) gs
        (fun ch hch => h ch (by simp [hch])) ?_ r hr
      cases h0 with
      | nil => simp
      | cons hy hu => simpa using hu

/-- The exchange keeps the number of chunks. -/
theorem swapSegs_length (m : List (List γ)) : (swapSegs m).length = m.length := by
  cases m with
  | nil => rfl
  | cons c0 rest => simp [swapSegs, putDiag_length]

/-- The exchange is an involution on a square segment matrix: one segment
per chunk in every chunk. -/
theorem swapSegs_involutive (m : List (List γ))
    (hrow : ∀ r ∈ m, r.length = m.length) :
    swapSegs (swapSegs m) = m := by
  cases m with
  | nil => rfl
  | cons c0 rest =>
    have hc0 : c0.length = rest.length + 1 := by
      simpa using hrow c0 (by simp)
    cases c0 with
    | nil => simp at hc0
    | cons x t0 =>
      have hinv := takeDiag_putDiag_involution rest 1 t0 (fun ch hch => by
        have := hrow ch (by simp [hch])
        simp only [List.length_cons] at this
        omega)
      simp only [swapSegs, List.take_succ_cons, List.take_zero, List.drop_succ_cons,
        List.drop_zero, List.cons_append, List.nil_append]
      rw [hinv.1, hinv.2]

/-- C8: applying the interleave transform twice with the same chunk sizes
is the identity on the list of chunks, for every configuration of
equal-size chunks; the index-matched exchange swaps equal-length segments
in place, so the de-interleave of the logits restores every per-sample
position. -/
theorem c8_interleave_involution (xs : List (List β)) (B : ℕ)
    (h : ∀ ch ∈ xs, ch.length = B) :
    interleave (interleave xs B) B = xs := by
  rcases Nat.eq_zero_or_pos xs.length with hn | hn
  · rw [List.length_eq_zero] at hn
    subst hn
    rfl
  · have hglen := interleaveGroups_length B xs.length hn
    have hgsum := interleaveGroups_sum B xs.length hn
    have hMrow : ∀ r ∈ xs.map (splitByGroups (interleaveGroups B xs.length)),
        List.Forall₂ (fun s g => s.length = g) r (interleaveGroups B xs.length) := by
      intro r hr
      rcases List.mem_map.mp hr with ⟨ch, hch, rfl⟩
      exact splitByGroups_forall₂ _ ch (by rw [h ch hch, hgsum])
    have hMrowlen : ∀ r ∈ xs.map (splitByGroups (interleaveGroups B xs.length)),
        r.length = (xs.map (splitByGroups (interleaveGroups B xs.length))).length := by
      intro r hr
      rw [List.length_map, (hMrow r hr).length_eq, hglen]
    have hswshape := swapSegs_forall₂
      (xs.map (splitByGroups (interleaveGroups B xs.length))) _ hMrow
    have hYlen : ((swapSegs (xs.map
        (splitByGroups (interleaveGroups B xs.length)))).map List.flatten).length =
        xs.length := by
      rw [List.length_map, swapSegs_length, List.length_map]
    simp only [interleave]
    rw [hYlen, List.map_map]
    have hrec : ∀ r ∈ swapSegs (xs.map (splitByGroups (interleaveGroups B xs.length))),
        (splitByGroups (interleaveGroups B xs.length) ∘ List.flatten) r = id r := by
      intro r hr
      simp only [Function.comp_apply, id_eq]
      exact splitByGroups_flatten_of_forall₂ (hswshape r hr)
    rw [List.map_congr_left hrec, List.map_id,
      swapSegs_involutive _ hMrowlen, List.map_map]
    have hback : ∀ ch ∈ xs,
        (List.flatten ∘ splitByGroups (interleaveGroups B xs.length)) ch = id ch := by
      intro ch hch
      simp only [Function.comp_apply, id_eq]
      exact flatten_splitByGroups _ ch (by rw [h ch hch, hgsum])
    rw [List.map_congr_left hback, List.map_id]

/-- C8 (witness): two chunks of three rows; one application exchanges the
index-matched segments and a second application restores the original
chunks. -/
theorem c8_witness :
    (∀ ch ∈ ([[0, 1, 2], [3, 4, 5]] : List (List ℕ)), ch.length = 3) ∧
    interleave (interleave ([[0, 1, 2], [3, 4, 5]] : List (List ℕ)) 3) 3 =
      [[0, 1, 2], [3, 4, 5]] := by
  refine ⟨by decide, ?_⟩
  exact c8_interleave_involution ([[0, 1, 2], [3, 4, 5]] : List (List ℕ)) 3 (by decide)

end MixMatch
